import Mathlib

/-!
Verification of the sequence-processing library in `src/lib/arrays.js`
(`developwithpassion/arrays_js`).

The library works on JavaScript arrays of arbitrary JavaScript values.  We
shallowly embed the runtime values the library manipulates as the inductive
type `JSVal` below (numbers, strings, booleans, `null`, `undefined`, opaque
function values, and arrays).  JavaScript strict equality `===` is modeled as
structural equality on `JSVal`; this is exact for primitives (numbers,
strings, booleans, `null`, `undefined`), while for array and function values
(where `===` is reference identity) structural equality on the opaque tag,
resp. the element list, is used.  None of the claims below depends on the
reference identity of nested arrays.

Visitors, predicates, reducers and mappers supplied by the caller may have
side effects that the claims observe (call counters, visit logs).  They are
therefore embedded in state-passing style: a callable of state type `σ`
receives the state and its JavaScript arguments and returns the new state
together with its JavaScript return value.

Traversing `null`/`undefined` throws in JavaScript
(`Array.prototype.slice.call` rejects them), so every operation that
traverses a target returns `Except String`, with `.error` modeling a thrown
`TypeError`.

The partial-application adapter (`curry` from `@developwithpassion/curry_js`)
is not part of this repository's sources.  Modelled from the spec (section
4.1): an operation of declared arity N, when called with k ≥ N arguments, is
invoked immediately with all of them; rest parameters do not contribute to
the declared arity.  Each public entry point is therefore embedded once per
concrete call shape, applying this rule; the shape-specific definitions
(`reduce3`, `reduce2`, `first_call1`, `first_fn`, `sort_call1`) document the
dispatch they model.
-/

namespace ArraysJs

mutual

/-- A JavaScript runtime value, as far as the library observes it. -/
inductive JSVal where
  | num : Int → JSVal
  | str : String → JSVal
  | bool : Bool → JSVal
  | null : JSVal
  | undefined : JSVal
  | func : Nat → JSVal
  | arr : JSArr → JSVal
deriving DecidableEq, Repr

/-- The element spine of a JavaScript array value (kept as a separate
inductive so that decidable equality can be derived). -/
inductive JSArr where
  | nil : JSArr
  | cons : JSVal → JSArr → JSArr
deriving DecidableEq, Repr

end

/-- View the spine of an array value as a Lean list. -/
def JSArr.toList : JSArr → List JSVal
  | .nil => []
  | .cons v rest => v :: rest.toList

/-- Build an array-value spine from a Lean list. -/
def JSArr.ofList : List JSVal → JSArr
  | [] => .nil
  | v :: rest => .cons v (JSArr.ofList rest)

/-- The JavaScript array value holding the given elements. -/
def jarr (l : List JSVal) : JSVal := JSVal.arr (JSArr.ofList l)

/-- JavaScript truthiness of a value. -/
def truthy : JSVal → Bool
  | .num n => decide (n ≠ 0)
  | .str s => decide (s ≠ "")
  | .bool b => b
  | .null => false
  | .undefined => false
  | .func _ => true
  | .arr _ => true

/-- Model of `Array.prototype.slice.call(target, 0)`, the defensive snapshot
every traversal takes: arrays copy their elements, strings split into
one-character strings, `null`/`undefined` throw a `TypeError` (`none`), and
other primitives coerce to objects without indexed elements (no modeled code
path slices a number, boolean or function). -/
def jsSlice : JSVal → Option (List JSVal)
  | .arr a => some a.toList
  | .str s => some (s.toList.map (fun c => JSVal.str (String.mk [c])))
  | .null => none
  | .undefined => none
  | .num _ => some []
  | .bool _ => some []
  | .func _ => some []

/-- The error used for a traversal of a target that cannot be converted to an
object (`null`/`undefined`). -/
def sliceTypeError : String :=
  "TypeError: the traversal target is null or undefined"

/-- Model of the property read `target[0]` (used by `reduce` to seed an
implicit accumulator): reading index 0 of `null`/`undefined` throws, an empty
array or a non-indexed primitive yields `undefined`. -/
def jsIndex0 : JSVal → Except String JSVal
  | .arr a =>
    .ok (match a with
         | .nil => JSVal.undefined
         | .cons v _ => v)
  | .str s =>
    .ok (match s.toList with
         | [] => JSVal.undefined
         | c :: _ => JSVal.str (String.mk [c]))
  | .null => .error sliceTypeError
  | .undefined => .error sliceTypeError
  | .num _ => .ok JSVal.undefined
  | .bool _ => .ok JSVal.undefined
  | .func _ => .ok JSVal.undefined

/-- JavaScript `a + b` for the value shapes the claims exercise (numeric
addition and string concatenation; the remaining coercing shapes are not
needed by any modeled call and return `undefined`). -/
def jsAdd : JSVal → JSVal → JSVal
  | .num a, .num b => .num (a + b)
  | .str a, .str b => .str (a ++ b)
  | _, _ => .undefined

/-- JavaScript `a < b` for numbers and strings (the comparison shapes used by
the default sort comparer and `max`); other shapes compare as `false`. -/
def jsLt : JSVal → JSVal → Bool
  | .num a, .num b => decide (a < b)
  | .str a, .str b => decide (a < b)
  | _, _ => false

/-- JavaScript `a > b`, same scope as `jsLt`. -/
def jsGt : JSVal → JSVal → Bool
  | .num a, .num b => decide (b < a)
  | .str a, .str b => decide (b < a)
  | _, _ => false

/-- `Array.prototype.findIndex` on a list: the index of the first element
satisfying the predicate, `-1` when none does. -/
def findIndexAux (p : JSVal → Bool) : List JSVal → Int
  | [] => -1
  | x :: xs =>
    if p x then 0
    else
      let r := findIndexAux p xs
      if r = -1 then -1 else r + 1

/-- `target.findIndex(p)`; only array receivers occur in the modeled calls
(the `uniq` constraint only runs once the same target has been sliced
successfully). -/
def jsFindIndex (target : JSVal) (p : JSVal → Bool) : Int :=
  match target with
  | .arr a => findIndexAux p a.toList
  | _ => -1

/-- A caller-supplied callable receiving `(item, index, snapshot)` in
state-passing style, returning its new state and its JavaScript return
value.  Used for visitors, predicates, constraints and value resolvers. -/
abbrev Visitor (σ : Type) := σ → JSVal → Nat → List JSVal → σ × JSVal

/-- A caller-supplied reducer receiving `(accumulator, item, index,
snapshot)` in state-passing style. -/
abbrev Reducer (σ : Type) := σ → JSVal → JSVal → Nat → List JSVal → σ × JSVal

/-- The loop of `each_until` (`src/lib/arrays.js` lines 3-14) after the
snapshot has been taken: visit `rest` at ascending indices starting at
`index`, passing the fixed snapshot as third argument, and return as soon as
the visitor returns exactly the boolean `false` (the source additionally
guards for `undefined`/`null` return values, which cannot equal `false`
anyway, so the stop test is identity with `false`). -/
def each_until_go (visitor : Visitor σ) (snapshot : List JSVal) :
    List JSVal → Nat → σ → σ
  | [], _, s => s
  | v :: rest, index, s =>
    let r := visitor s v index snapshot
    if r.2 = JSVal.bool false then r.1
    else each_until_go visitor snapshot rest (index + 1) r.1

/-- `each_until(visitor, target)`: snapshot the target with
`Array.prototype.slice`, then run the forward loop. -/
def each_until (visitor : Visitor σ) (target : JSVal) (s : σ) :
    Except String σ :=
  match jsSlice target with
  | none => .error sliceTypeError
  | some items => .ok (each_until_go visitor items items 0 s)

/-- The loop of `each_in_reverse_until` (lines 16-28): visit indices
`n-1, n-2, ..., 0` of the snapshot, stopping on a return of exactly
`false`. -/
def each_in_reverse_until_go (visitor : Visitor σ) (snapshot : List JSVal) :
    Nat → σ → σ
  | 0, s => s
  | n + 1, s =>
    let v := snapshot.getD n JSVal.undefined
    let r := visitor s v n snapshot
    if r.2 = JSVal.bool false then r.1
    else each_in_reverse_until_go visitor snapshot n r.1

/-- `each_in_reverse_until(visitor, target)`. -/
def each_in_reverse_until (visitor : Visitor σ) (target : JSVal) (s : σ) :
    Except String σ :=
  match jsSlice target with
  | none => .error sliceTypeError
  | some items => .ok (each_in_reverse_until_go visitor items items.length s)

/-- The `_each` wrapper (lines 30-35) passes the visitor through but discards
its return value (the wrapping arrow returns `undefined`), so the underlying
`each_until` never sees a `false` and traverses everything. -/
def wrapVisitor (visitor : σ → JSVal → Nat → List JSVal → σ) : Visitor σ :=
  fun s v i a => (visitor s v i a, JSVal.undefined)

/-- `each(visitor, target)` = `_each(each_until)`. -/
def each (visitor : σ → JSVal → Nat → List JSVal → σ) (target : JSVal)
    (s : σ) : Except String σ :=
  each_until (wrapVisitor visitor) target s

/-- The operator symbols recognized by the symbolic-reduce dispatch
(`const operators = ['+', '-', '/', '*']`, line 41). -/
def operators : List JSVal :=
  [JSVal.str "+", JSVal.str "-", JSVal.str "/", JSVal.str "*"]

/-- The `each` call inside `reduce_using_reducer` (lines 68-73): fold the
reducer over the target, skipping indices below `start_index`, with the
user state and the accumulator threaded together. -/
def reduce_body (reducer : Reducer σ) (start_index : Nat) (initial : JSVal)
    (target : JSVal) (s : σ) : Except String (σ × JSVal) :=
  each
    (fun (st : σ × JSVal) v i a =>
      if start_index ≤ i then reducer st.1 st.2 v i a else st)
    target (s, initial)

/-- `reduce_using_reducer(reducer, initial_value, target)` (lines 60-76): an
`undefined` initial value is replaced by `target[0]` and folding starts at
index 1; otherwise folding starts at index 0. -/
def reduce_using_reducer (reducer : Reducer σ) (initial_value : JSVal)
    (target : JSVal) (s : σ) : Except String (σ × JSVal) :=
  if initial_value = JSVal.undefined then
    match jsIndex0 target with
    | .error e => .error e
    | .ok v0 => reduce_body reducer 1 v0 target s
  else reduce_body reducer 0 initial_value target s

/-- The public curried `reduce` (lines 43-58) applied to three arguments
`(initial, reducer, target)` where the second argument is a callable: the
declared arity of the wrapped function is two, so three arguments invoke it
immediately with `rest = [target]` and `target = rest.pop()`.  The dispatch
tests `operators.indexOf(initial) > -1`; a match would send the call to the
symbolic branch, which would then treat the callable second argument as the
symbolic initial accumulator — a shape no modeled call (and no claim)
produces, left as an error.  All modeled calls have a non-operator first
argument and take the `reduce_using_reducer` branch. -/
def reduce3 (initial : JSVal) (reducer : Reducer σ) (target : JSVal)
    (s : σ) : Except String (σ × JSVal) :=
  if initial ∈ operators then
    .error "unmodeled call shape: symbolic reduce with a callable second argument"
  else reduce_using_reducer reducer initial target s

/-- The public curried `reduce` applied to exactly two arguments, a callable
and a sequence.  The declared arity is two, so the call invokes immediately
with `rest` empty and the traversal target `rest.pop()` is `undefined`; the
callable first argument lands in the `initial_value_or_symbol` slot and the
sequence lands in the reducer slot.  `operators.indexOf` does not match a
callable, so the call becomes
`reduce_using_reducer(sequence, callable, undefined)`.  The parameter `r` is
an arbitrary stand-in for the sequence value occupying the reducer slot: the
implicit-initial test compares the callable (not `undefined`) and the
traversal of the `undefined` target then throws before the reducer slot is
ever invoked, so the result does not depend on `r` — theorem
`reduce_c1_amended` quantifies over it. -/
def reduce2 (first_arg : JSVal) (r : Reducer σ) (s : σ) :
    Except String (σ × JSVal) :=
  if first_arg ∈ operators then
    .error "unmodeled call shape: symbolic reduce applied to two arguments"
  else reduce_using_reducer r first_arg JSVal.undefined s

/-- `first_with_target(direction, condition, target)` (lines 86-98): run the
direction with a visitor that records the current item into `result` when
the condition answers truthy and returns `!match`, so the traversal stops
exactly at the first match.  `result` starts as `null`. -/
def first_with_target
    (direction : Visitor (σ × JSVal) → JSVal → (σ × JSVal) →
      Except String (σ × JSVal))
    (condition : Visitor σ) (target : JSVal) (s : σ) :
    Except String (σ × JSVal) :=
  direction
    (fun st v i a =>
      let m := condition st.1 v i a
      ((m.1, if truthy m.2 then v else st.2), JSVal.bool (!truthy m.2)))
    target (s, JSVal.null)

/-- `first(condition, target)` where the first argument is a callable: the
dispatcher `find_first_in_direction` (lines 100-110) sees a non-array,
non-null first argument and a non-empty rest, so it forwards to
`first_with_target(each_until, condition, target)`. -/
def first_fn (condition : Visitor σ) (target : JSVal) (s : σ) :
    Except String (σ × JSVal) :=
  first_with_target each_until condition target s

/-- `first(x)` applied to a single non-callable argument, the shapes decided
by `find_first_in_direction` lines 102-103: an array returns
`x[0] || null` (note `||`: a falsy first element yields `null`), `null`
returns `null`.  Any other single argument produces a partially applied
search, not a value, hence `none`. -/
def first_call1 : JSVal → Option JSVal
  | .arr a =>
    some
      (match a with
       | .nil => JSVal.null
       | .cons v _ => if truthy v then v else JSVal.null)
  | .null => some JSVal.null
  | _ => none

/-- `any(condition, target)` (line 116) = `!!first(condition, target)`:
double negation turns the found value into its truthiness. -/
def any (condition : Visitor σ) (target : JSVal) (s : σ) :
    Except String (σ × JSVal) :=
  (first_fn condition target s).map (fun p => (p.1, JSVal.bool (truthy p.2)))

/-- `none(condition, target)` (line 118) = `!any(condition, target)`.  Named
`none_op` because `none` is taken by `Option` in Lean. -/
def none_op (condition : Visitor σ) (target : JSVal) (s : σ) :
    Except String (σ × JSVal) :=
  (any condition target s).map (fun p => (p.1, JSVal.bool (!truthy p.2)))

/-- `filter(constraint, target)` (lines 120-131): reduce with an empty-array
accumulator, pushing each item the constraint accepts.  The accumulator is
the array literal from the initial value on every path, so the non-array
fallback of the push is unreachable (in JavaScript it would throw). -/
def filter (constraint : Visitor σ) (target : JSVal) (s : σ) :
    Except String (σ × JSVal) :=
  reduce3 (jarr [])
    (fun s acc v i a =>
      let m := constraint s v i a
      if truthy m.2 then
        (m.1,
         match acc with
         | JSVal.arr xs => jarr (xs.toList ++ [v])
         | other => other)
      else (m.1, acc))
    target s

/-- `uniq_with_target_and_mapper(mapper, target)` (lines 150-161): keep the
element at index `i` exactly when `i` equals the index of the first element
of the (closed-over) target whose mapped key equals this element's mapped
key, computed with `target.findIndex`.  The mapper is a pure key function as
in the source. -/
def uniq_with_target_and_mapper (mapper : JSVal → JSVal) (target : JSVal) :
    Except String JSVal :=
  (filter
      (fun (u : Unit) v i _a =>
        let mapped := mapper v
        let first_matching_index :=
          jsFindIndex target (fun w => decide (mapper w = mapped))
        (u, JSVal.bool (decide ((i : Int) = first_matching_index))))
      target ()).map (fun p => p.2)

/-- `true_for_all(condition, target)` (lines 163-165): reduce with a `true`
seed and the reducer `(acc, ...args) => acc && condition(...args)`.  The
JavaScript `&&` short-circuits: when the accumulator is falsy it is returned
as is and the condition is NOT invoked. -/
def true_for_all (condition : Visitor σ) (target : JSVal) (s : σ) :
    Except String (σ × JSVal) :=
  reduce3 (JSVal.bool true)
    (fun s acc v i a => if truthy acc then condition s v i a else (s, acc))
    target s

/-- `max(value_resolver, target)` (lines 167-176): reduce seeded with the
number `0`, keeping the larger of the resolved item value and the running
accumulator under JavaScript `>`. -/
def max (value_resolver : Visitor σ) (target : JSVal) (s : σ) :
    Except String (σ × JSVal) :=
  reduce3 (JSVal.num 0)
    (fun s acc v i a =>
      let m := value_resolver s v i a
      (m.1, if jsGt m.2 acc then m.2 else acc))
    target s

/-- The default comparer `(a, b) => (a < b ? -1 : a > b ? 1 : 0)`
(line 178). -/
def default_comparer (a b : JSVal) : Int :=
  if jsLt a b then -1 else if jsGt a b then 1 else 0

/-- Stable insertion of one element into an already sorted list under a
JavaScript comparer: the new element goes after every element it does not
strictly precede. -/
def insertSorted (comparer : JSVal → JSVal → Int) (x : JSVal) :
    List JSVal → List JSVal
  | [] => [x]
  | y :: ys =>
    if comparer x y < 0 then x :: y :: ys else y :: insertSorted comparer x ys

/-- Model of `results.sort(comparer)` as a stable insertion sort
(ECMAScript requires `Array.prototype.sort` to be stable, and for a
consistent comparer the result is comparer-determined). -/
def stableSort (comparer : JSVal → JSVal → Int) (l : List JSVal) :
    List JSVal :=
  l.foldl (fun acc x => insertSorted comparer x acc) []

/-- `sort_with_comparer_and_target(comparer, target)` (lines 180-187):
`target || []` replaces a falsy target with an empty array, `slice(0)` takes
a copy, and the copy is sorted in place and returned.  A truthy non-array
target would fail its `slice` method lookup (no modeled call produces
one). -/
def sort_with_comparer_and_target (comparer : JSVal → JSVal → Int)
    (target : JSVal) : Except String JSVal :=
  let target_to_sort := if truthy target then target else jarr []
  match target_to_sort with
  | JSVal.arr xs => .ok (jarr (stableSort comparer xs.toList))
  | _ => .error "TypeError: the sort target has no slice method"

/-- The public `sort` (lines 189-195) applied to a single non-callable
argument: `null` short-circuits to a fresh empty array; an array first
argument selects the default comparer.  A lone comparer yields a partially
applied sort, not a value, hence the error marker for that shape. -/
def sort_call1 : JSVal → Except String JSVal
  | JSVal.null => .ok (jarr [])
  | JSVal.arr xs => sort_with_comparer_and_target default_comparer (JSVal.arr xs)
  | _ => .error "unmodeled call shape: a lone comparer produces a partially applied sort"

/-- A heap of array objects: references are indices into the store.  Used to
state what the pure model cannot: that `sort` allocates a fresh array and
leaves the referenced input untouched. -/
structure Store where
  arrays : List (List JSVal)
deriving DecidableEq, Repr

/-- Heap-level view of `sort_with_comparer_and_target` on an array
reference: `slice(0)` allocates a fresh array (a new cell appended to the
store), the in-place `.sort(comparer)` then mutates only that fresh copy,
and the fresh reference is returned. -/
def sort_heap (comparer : JSVal → JSVal → Int) (store : Store) (ref : Nat) :
    Store × Nat :=
  let target := store.arrays.getD ref []
  let results := stableSort comparer target
  (⟨store.arrays ++ [results]⟩, store.arrays.length)

/-- The keys of the aggregated default export (lines 199-218), in source
order. -/
def default_export_names : List String :=
  ["each", "each_until", "each_in_reverse", "each_in_reverse_until", "last",
   "first", "any", "none", "filter", "map", "flat_map", "flatten", "uniq",
   "true_for_all", "reduce", "sort", "max", "generate"]

/-- The names exported individually (`export const ...`), in source order.
`flatten` is a plain `const` and only reachable through the default
export. -/
def named_export_names : List String :=
  ["each_until", "each_in_reverse_until", "each", "each_in_reverse",
   "reduce", "last", "first", "any", "none", "filter", "map", "flat_map",
   "uniq", "true_for_all", "max", "sort", "generate"]

/-! Instrumented callables and specification-side descriptions used to state
the claims. -/

/-- Lift a pure callable into the state-passing form (a callable with no
side effects). -/
def statelessFn (f : JSVal → Nat → List JSVal → JSVal) : Visitor Unit :=
  fun u v i a => (u, f v i a)

/-- A pure boolean predicate instrumented with an invocation counter: each
call bumps the counter and returns the predicate's boolean. -/
def countP (p : JSVal → Nat → List JSVal → Bool) : Visitor Nat :=
  fun n v i a => (n + 1, JSVal.bool (p v i a))

/-- A visitor that logs every index it is invoked at and returns the value
prescribed by `ret`. -/
def logVisitor (ret : JSVal → Nat → List JSVal → JSVal) :
    Visitor (List Nat) :=
  fun log v i a => (log ++ [i], ret v i a)

/-- Expected invocation count of the `true_for_all` condition over an
enumerated sequence: one call per element up to and including the first
element on which the condition answers `false`; all elements when none
does. -/
def scanCount (q : Nat × JSVal → Bool) : List (Nat × JSVal) → Nat
  | [] => 0
  | x :: xs => if q x then scanCount q xs + 1 else 1

/-- Whether a visitor that returns `ret` stops the traversal at index `i` of
snapshot `S`: exactly when the returned value is the boolean `false`. -/
def stopsAt (ret : JSVal → Nat → List JSVal → JSVal) (S : List JSVal)
    (i : Nat) : Bool :=
  decide (ret (S.getD i JSVal.undefined) i S = JSVal.bool false)

/-- The indices visited when traversing `order` with a stop signal: a prefix
of `order` up to and including the first stopping index. -/
def visitedUpTo (stops : Nat → Bool) : List Nat → List Nat
  | [] => []
  | i :: rest => if stops i then [i] else i :: visitedUpTo stops rest

/-- Keep the elements of a list whose (absolute) index satisfies the
predicate, counting indices from `i`.  Describes what `filter` builds. -/
def keepIdx (p : JSVal → Nat → Bool) : List JSVal → Nat → List JSVal
  | [], _ => []
  | v :: rest, i =>
    if p v i then v :: keepIdx p rest (i + 1) else keepIdx p rest (i + 1)

/-- The list `uniq` keeps from `S` under key function `mapper`: the elements
standing at the first index at which their key occurs. -/
def uniqKeep (mapper : JSVal → JSVal) (S : List JSVal) : List JSVal :=
  keepIdx
    (fun v i =>
      decide ((i : Int)
        = jsFindIndex (jarr S) (fun w => decide (mapper w = mapper v))))
    S 0

/-- The reducer `(a, b) => a + b` of the worked examples. -/
def addReducer : Reducer Unit := fun u acc v _ _ => (u, jsAdd acc v)

/-- A stand-in for the sequence value that occupies the reducer slot in the
two-argument `reduce` call shape; it is never invoked there (the traversal
of the `undefined` target throws first). -/
def arrayInReducerSlot : Reducer Unit := fun u _ _ _ _ => (u, JSVal.undefined)

/-- The predicate `x => x % 2 === 0` of the worked examples. -/
def evenP : JSVal → Nat → List JSVal → Bool := fun v _ _ =>
  match v with
  | .num n => decide (n % 2 = 0)
  | _ => false

/-- The predicate `x => x === 0`, whose match is the falsy value `0`. -/
def zeroP : JSVal → Nat → List JSVal → JSVal := fun v _ _ =>
  JSVal.bool (decide (v = JSVal.num 0))

/-- The predicate `x => x === 2`. -/
def twoP : JSVal → Nat → List JSVal → JSVal := fun v _ _ =>
  JSVal.bool (decide (v = JSVal.num 2))

/-- The array `[1, 2, 3, 4]` of the worked examples. -/
def l1234 : List JSVal := [JSVal.num 1, JSVal.num 2, JSVal.num 3, JSVal.num 4]

/-- The array `[1, 2, 3]`. -/
def l123 : List JSVal := [JSVal.num 1, JSVal.num 2, JSVal.num 3]

/-- A one-cell heap holding the array `[3, 1]`. -/
def store0 : Store := ⟨[[JSVal.num 3, JSVal.num 1]]⟩

/-- The constant value resolver `() => -1`, whose resolved values are all
negative. -/
def negOneR : JSVal → Nat → List JSVal → JSVal := fun _ _ _ => JSVal.num (-1)

/-! Bridge lemmas between the embedded operations and list-level folds. -/

theorem JSArr.toList_ofList : ∀ l : List JSVal, (JSArr.ofList l).toList = l
  | [] => rfl
  | v :: rest => by simp [JSArr.ofList, JSArr.toList, JSArr.toList_ofList rest]

theorem jsSlice_jarr (S : List JSVal) : jsSlice (jarr S) = some S := by
  simp [jsSlice, jarr, JSArr.toList_ofList]

theorem each_until_jarr (visitor : Visitor σ) (S : List JSVal) (s : σ) :
    each_until visitor (jarr S) s = .ok (each_until_go visitor S S 0 s) := by
  rw [each_until, jsSlice_jarr]

theorem each_in_reverse_until_jarr (visitor : Visitor σ) (S : List JSVal)
    (s : σ) :
    each_in_reverse_until visitor (jarr S) s
      = .ok (each_in_reverse_until_go visitor S S.length s) := by
  rw [each_in_reverse_until, jsSlice_jarr]

theorem each_until_go_wrap (f : σ → JSVal → Nat → List JSVal → σ)
    (snap : List JSVal) :
    ∀ (rest : List JSVal) (i : Nat) (s : σ),
      each_until_go (wrapVisitor f) snap rest i s
        = (List.enumFrom i rest).foldl (fun s q => f s q.2 q.1 snap) s := by
  intro rest
  induction rest with
  | nil => intro i s; rfl
  | cons v vs ih =>
    intro i s
    simp only [each_until_go, wrapVisitor, List.enumFrom, List.foldl_cons]
    rw [if_neg (by simp), ih]

theorem enumFrom_fst_le :
    ∀ (l : List JSVal) (n : Nat) (q : Nat × JSVal),
      q ∈ List.enumFrom n l → n ≤ q.1 := by
  intro l
  induction l with
  | nil => intro n q hq; simp [List.enumFrom] at hq
  | cons v vs ih =>
    intro n q hq
    simp only [List.enumFrom, List.mem_cons] at hq
    rcases hq with h | h
    · subst h; exact Nat.le_refl n
    · have := ih (n + 1) q h; omega

theorem enumFrom_zero_mem_spec :
    ∀ (l : List JSVal) (q : Nat × JSVal),
      q ∈ List.enumFrom 0 l →
        q.1 < l.length ∧ l.getD q.1 JSVal.undefined = q.2 := by
  have general :
      ∀ (l : List JSVal) (n : Nat) (q : Nat × JSVal),
        q ∈ List.enumFrom n l →
          n ≤ q.1 ∧ q.1 - n < l.length ∧
            l.getD (q.1 - n) JSVal.undefined = q.2 := by
    intro l
    induction l with
    | nil => intro n q hq; simp [List.enumFrom] at hq
    | cons v vs ih =>
      intro n q hq
      simp only [List.enumFrom, List.mem_cons] at hq
      rcases hq with h | h
      · subst h; simp
      · obtain ⟨h1, h2, h3⟩ := ih (n + 1) q h
        have hq1 : q.1 - n = (q.1 - (n + 1)) + 1 := by omega
        refine ⟨by omega, by simp [List.length_cons]; omega, ?_⟩
        rw [hq1, List.getD_cons_succ, h3]
  intro l q hq
  have := general l 0 q hq
  simpa using this

theorem foldl_guard_drop (r : Reducer σ) (S : List JSVal) (m : Nat) :
    ∀ (L : List (Nat × JSVal)) (p : σ × JSVal), (∀ q ∈ L, m ≤ q.1) →
      L.foldl (fun p q => if m ≤ q.1 then r p.1 p.2 q.2 q.1 S else p) p
        = L.foldl (fun p q => r p.1 p.2 q.2 q.1 S) p := by
  intro L
  induction L with
  | nil => intro p _; rfl
  | cons q L ih =>
    intro p h
    rw [List.foldl_cons, List.foldl_cons, if_pos (h q (by simp))]
    exact ih _ (fun x hx => h x (by simp [hx]))

theorem reduce3_jarr_explicit (r : Reducer σ) (initial : JSVal)
    (S : List JSVal) (s : σ) (hop : initial ∉ operators)
    (hundef : initial ≠ JSVal.undefined) :
    reduce3 initial r (jarr S) s
      = .ok ((List.enumFrom 0 S).foldl
          (fun p q => r p.1 p.2 q.2 q.1 S) (s, initial)) := by
  rw [reduce3, if_neg hop, reduce_using_reducer, if_neg hundef]
  unfold reduce_body each
  rw [each_until_jarr, each_until_go_wrap]
  rw [show (fun (s : σ × JSVal) (q : Nat × JSVal) =>
        (fun (st : σ × JSVal) v i a =>
          if 0 ≤ i then r st.1 st.2 v i a else st) s q.2 q.1 S)
      = fun (p : σ × JSVal) (q : Nat × JSVal) =>
          if 0 ≤ q.1 then r p.1 p.2 q.2 q.1 S else p from rfl]
  rw [foldl_guard_drop r S 0 _ _ (fun q _ => Nat.zero_le q.1)]

theorem reduce3_jarr_implicit (r : Reducer σ) (v : JSVal) (vs : List JSVal)
    (s : σ) :
    reduce3 JSVal.undefined r (jarr (v :: vs)) s
      = .ok ((List.enumFrom 1 vs).foldl
          (fun p q => r p.1 p.2 q.2 q.1 (v :: vs)) (s, v)) := by
  rw [reduce3, if_neg (by decide), reduce_using_reducer, if_pos rfl]
  have hidx : jsIndex0 (jarr (v :: vs)) = .ok v := by
    simp [jsIndex0, jarr, JSArr.ofList]
  rw [hidx]
  dsimp only
  unfold reduce_body each
  rw [each_until_jarr, each_until_go_wrap]
  rw [show (fun (s : σ × JSVal) (q : Nat × JSVal) =>
        (fun (st : σ × JSVal) v i a =>
          if 1 ≤ i then r st.1 st.2 v i a else st) s q.2 q.1 (v :: vs))
      = fun (p : σ × JSVal) (q : Nat × JSVal) =>
          if 1 ≤ q.1 then r p.1 p.2 q.2 q.1 (v :: vs) else p from rfl]
  simp only [List.enumFrom, List.foldl_cons]
  rw [if_neg (by omega)]
  exact congrArg Except.ok
    (foldl_guard_drop r (v :: vs) 1 _ _ (fun q hq => enumFrom_fst_le vs 1 q hq))

/-- C1 (counterexample): the claim's two-argument call
`reduce((a,b)=>a+b, [1,2,3,4])` does not return `10`: the curried `reduce`
fires at two arguments, the sequence lands in the reducer slot, the traversal
target `rest.pop()` is `undefined`, and slicing it throws a `TypeError`. -/
theorem reduce_c1_counterexample :
    reduce2 (JSVal.func 0) arrayInReducerSlot () = .error sliceTypeError := rfl

/-- C1 (amended): `reduce(0, (a,b)=>a+b, [1,2,3,4])` returns `10`, and the
implicit-accumulator behaviour exists but is reached by passing `undefined`
explicitly as the initial value: `reduce(undefined, (a,b)=>a+b, [1,2,3,4])`
also returns `10`, and in general `reduce(undefined, r, s)` on a non-empty
sequence seeds the accumulator from the first element and folds
left-to-right from index 1.  The two-argument call shape
`reduce(reducer, sequence)` instead throws a `TypeError`, whatever value
occupies the reducer slot. -/
theorem reduce_c1_amended :
    reduce3 (JSVal.num 0) addReducer (jarr l1234) () = .ok ((), JSVal.num 10)
    ∧ reduce3 JSVal.undefined addReducer (jarr l1234) ()
        = .ok ((), JSVal.num 10)
    ∧ (∀ (σ : Type) (r : Reducer σ) (v : JSVal) (vs : List JSVal) (s : σ),
        reduce3 JSVal.undefined r (jarr (v :: vs)) s
          = .ok ((List.enumFrom 1 vs).foldl
              (fun p q => r p.1 p.2 q.2 q.1 (v :: vs)) (s, v)))
    ∧ (∀ (σ : Type) (r : Reducer σ) (s : σ),
        reduce2 (JSVal.func 0) r s = .error sliceTypeError) :=
  ⟨rfl, rfl, fun _ r v vs s => reduce3_jarr_implicit r v vs s,
   fun _ _ _ => rfl⟩

/-- C2 (counterexample): `reduce` with an `undefined` initial value on the
empty sequence does not signal any error; it returns `undefined` (the
accumulator is seeded from `[][0]`, which is `undefined`, and the fold body
never runs). -/
theorem reduce_c2_counterexample :
    reduce3 JSVal.undefined addReducer (jarr []) () = .ok ((), JSVal.undefined) := rfl

/-- C2 (amended): calling `reduce` without an explicit initial value
(`undefined` in the initial slot) on an empty sequence silently returns
`undefined` for every reducer; no `EmptyReductionError` (or any other error)
is signaled anywhere in the code. -/
theorem reduce_c2_amended (σ : Type) (r : Reducer σ) (s : σ) :
    reduce3 JSVal.undefined r (jarr []) s = .ok (s, JSVal.undefined) := rfl

/-! Invocation counting for `true_for_all`. -/

theorem tfa_foldl_false (p : JSVal → Nat → List JSVal → Bool)
    (S : List JSVal) :
    ∀ (L : List (Nat × JSVal)) (n : Nat),
      L.foldl
        (fun st q =>
          if truthy st.2 then (st.1 + 1, JSVal.bool (p q.2 q.1 S))
          else (st.1, st.2))
        (n, JSVal.bool false)
        = (n, JSVal.bool false) := by
  intro L
  induction L with
  | nil => intro n; rfl
  | cons q L ih =>
    intro n
    rw [List.foldl_cons, if_neg (by simp [truthy])]
    exact ih n

theorem tfa_foldl (p : JSVal → Nat → List JSVal → Bool) (S : List JSVal) :
    ∀ (L : List (Nat × JSVal)) (n : Nat),
      L.foldl
        (fun st q =>
          if truthy st.2 then (st.1 + 1, JSVal.bool (p q.2 q.1 S))
          else (st.1, st.2))
        (n, JSVal.bool true)
        = (n + scanCount (fun q => p q.2 q.1 S) L,
           JSVal.bool (L.all (fun q => p q.2 q.1 S))) := by
  intro L
  induction L with
  | nil => intro n; simp [scanCount]
  | cons q L ih =>
    intro n
    rw [List.foldl_cons, if_pos (by simp [truthy])]
    by_cases hp : p q.2 q.1 S
    · rw [hp, ih (n + 1)]
      have harith : n + 1 + scanCount (fun q => p q.2 q.1 S) L
          = n + scanCount (fun q => p q.2 q.1 S) (q :: L) := by
        simp [scanCount, hp]; omega
      rw [harith]
      simp [List.all_cons, hp]
    · have hp' : p q.2 q.1 S = false := by simpa using hp
      rw [hp', tfa_foldl_false p S L (n + 1)]
      simp [scanCount, hp', List.all_cons]

/-- C3 (counterexample): `all(x => x % 2 === 0, [1, 2, 3, 4])` invokes the
predicate exactly once (the count is 1, not 4): after the accumulator turns
false at the first element, the JavaScript `&&` short-circuit inside the
reducer skips the predicate for the remaining elements. -/
theorem true_for_all_c3_counterexample :
    true_for_all (countP evenP) (jarr l1234) 0 = .ok (1, JSVal.bool false)
    ∧ decide ((1 : Nat) = 4) = false := ⟨rfl, rfl⟩

/-- C3 (amended): `all`/`true_for_all` folds a boolean accumulator seeded
`true` and the fold itself visits every element (a reducer has no stop
signal), but the predicate is only invoked while the accumulator is still
truthy: the invocation count is one per element up to and including the
first element on which it answers `false` (`scanCount`), and the result is
the conjunction over all elements.  In particular
`all(x => x % 2 === 0, [1,2,3,4])` invokes the predicate exactly once and
returns `false`. -/
theorem true_for_all_c3_amended :
    (∀ (p : JSVal → Nat → List JSVal → Bool) (S : List JSVal),
      true_for_all (countP p) (jarr S) 0
        = .ok (scanCount (fun q => p q.2 q.1 S) (List.enumFrom 0 S),
               JSVal.bool ((List.enumFrom 0 S).all (fun q => p q.2 q.1 S))))
    ∧ true_for_all (countP evenP) (jarr l1234) 0
        = .ok (1, JSVal.bool false) := by
  refine ⟨?_, rfl⟩
  intro p S
  have h := tfa_foldl p S (List.enumFrom 0 S) 0
  rw [Nat.zero_add] at h
  rw [true_for_all, reduce3_jarr_explicit _ _ _ _ (by decide) (by decide)]
  exact congrArg Except.ok h

/-! Visit logs for the stop-signal claims. -/

theorem each_until_go_log (ret : JSVal → Nat → List JSVal → JSVal)
    (S : List JSVal) :
    ∀ (rest : List JSVal) (i : Nat) (log : List Nat),
      (∀ k, k < rest.length →
        rest.getD k JSVal.undefined = S.getD (i + k) JSVal.undefined) →
      each_until_go (logVisitor ret) S rest i log
        = log ++ visitedUpTo (stopsAt ret S) (List.range' i rest.length) := by
  intro rest
  induction rest with
  | nil => intro i log _; simp [each_until_go, List.range', visitedUpTo]
  | cons v vs ih =>
    intro i log h
    have hv : v = S.getD i JSVal.undefined := by
      have := h 0 (by simp)
      simpa using this
    have hrng : List.range' i (v :: vs).length
        = i :: List.range' (i + 1) vs.length := by
      simp [List.range']
    rw [hrng]
    simp only [each_until_go, logVisitor]
    by_cases hstop : ret v i S = JSVal.bool false
    · rw [if_pos hstop]
      have hs : stopsAt ret S i = true := by
        unfold stopsAt; rw [← hv]; exact decide_eq_true hstop
      simp [visitedUpTo, hs]
    · rw [if_neg hstop]
      have hs : stopsAt ret S i = false := by
        unfold stopsAt; rw [← hv]; exact decide_eq_false hstop
      rw [ih (i + 1) (log ++ [i]) ?halign]
      · simp [visitedUpTo, hs]
      case halign =>
        intro k hk
        have := h (k + 1) (by simpa using Nat.succ_lt_succ hk)
        simpa [Nat.add_comm, Nat.add_assoc, Nat.add_left_comm] using this

theorem each_rev_go_log (ret : JSVal → Nat → List JSVal → JSVal)
    (S : List JSVal) :
    ∀ (m : Nat) (log : List Nat),
      each_in_reverse_until_go (logVisitor ret) S m log
        = log ++ visitedUpTo (stopsAt ret S) (List.range m).reverse := by
  intro m
  induction m with
  | zero => intro log; simp [each_in_reverse_until_go, visitedUpTo]
  | succ n ih =>
    intro log
    have hrev : (List.range (n + 1)).reverse = n :: (List.range n).reverse := by
      rw [List.range_succ]; simp
    rw [hrev]
    simp only [each_in_reverse_until_go, logVisitor]
    by_cases hstop : ret (S.getD n JSVal.undefined) n S = JSVal.bool false
    · rw [if_pos hstop]
      have hs : stopsAt ret S n = true := decide_eq_true hstop
      simp [visitedUpTo, hs]
    · rw [if_neg hstop]
      have hs : stopsAt ret S n = false := decide_eq_false hstop
      rw [ih]
      simp [visitedUpTo, hs]

/-- C6 (confirmed): a traversal visits exactly the prefix of the index order
up to and including the first index whose visitor return value is the
boolean `false` by identity — `each_until` in ascending order `0..n-1`,
`each_in_reverse_until` in descending order `n-1..0` — and no other return
value stops it: in particular `0`, the empty string, `null` and `undefined`
are not identical to `false`, so `stopsAt` is `false` there and iteration
continues past them. -/
theorem each_until_c6 (ret : JSVal → Nat → List JSVal → JSVal)
    (S : List JSVal) :
    each_until (logVisitor ret) (jarr S) []
      = .ok (visitedUpTo (stopsAt ret S) (List.range S.length))
    ∧ each_in_reverse_until (logVisitor ret) (jarr S) []
      = .ok (visitedUpTo (stopsAt ret S) (List.range S.length).reverse)
    ∧ decide (JSVal.num 0 = JSVal.bool false) = false
    ∧ decide (JSVal.str "" = JSVal.bool false) = false
    ∧ decide (JSVal.null = JSVal.bool false) = false
    ∧ decide (JSVal.undefined = JSVal.bool false) = false := by
  refine ⟨?_, ?_, rfl, rfl, rfl, rfl⟩
  · rw [each_until_jarr,
      each_until_go_log ret S S 0 [] (fun k _ => by simp)]
    simp [List.range_eq_range']
  · rw [each_in_reverse_until_jarr, each_rev_go_log]
    simp

/-- C4 (counterexample): with the predicate `x => x === 0` on the sequence
`[0]`, `first` finds the falsy element `0` (which is not `null`), yet `any`
— defined as `!!first(...)` — returns `false`, so `any(p, S)` is not
`first(p, S) !== null` when the first match is falsy. -/
theorem any_c4_counterexample :
    first_fn (statelessFn zeroP) (jarr [JSVal.num 0]) ()
      = .ok ((), JSVal.num 0)
    ∧ any (statelessFn zeroP) (jarr [JSVal.num 0]) ()
      = .ok ((), JSVal.bool false)
    ∧ decide (JSVal.num 0 = JSVal.null) = false := ⟨rfl, rfl, rfl⟩

/-- C4 (amended): `any(p, S)` is the truthiness of `first(p, S)`, which
coincides with `first(p, S) !== null` whenever the found value is truthy or
no element matches (the result is then `null`); a falsy matching element
makes the two differ.  `none(p, S)` is always the boolean negation of
`any(p, S)`. -/
theorem any_c4_amended (p : JSVal → Nat → List JSVal → JSVal)
    (S : List JSVal) (r : JSVal) (b : Bool) :
    (first_fn (statelessFn p) (jarr S) () = .ok ((), r) →
      truthy r = true ∨ r = JSVal.null →
      any (statelessFn p) (jarr S) ()
        = .ok ((), JSVal.bool (decide (r ≠ JSVal.null))))
    ∧ (any (statelessFn p) (jarr S) () = .ok ((), JSVal.bool b) →
      none_op (statelessFn p) (jarr S) () = .ok ((), JSVal.bool (!b))) := by
  constructor
  · intro h1 h2
    rw [any, h1]
    rcases h2 with ht | hnull
    · have hne : r ≠ JSVal.null := by
        intro e; subst e; simp [truthy] at ht
      simp [Except.map, ht, hne]
    · subst hnull
      simp [Except.map, truthy]
  · intro h
    rw [none_op, h]
    simp [Except.map, truthy]

/-- C4 (witness): for `x => x === 2` on `[1, 2, 3]` the found value `2` is
truthy, `any` answers `true` and `none` answers `false`. -/
theorem any_c4_witness :
    any (statelessFn twoP) (jarr l123) () = .ok ((), JSVal.bool true)
    ∧ none_op (statelessFn twoP) (jarr l123) ()
      = .ok ((), JSVal.bool false) := by
  have h1 : first_fn (statelessFn twoP) (jarr l123) ()
      = Except.ok ((), JSVal.num 2) := rfl
  have h2 := (any_c4_amended twoP l123 (JSVal.num 2) true).1 h1 (Or.inl rfl)
  have h2' : any (statelessFn twoP) (jarr l123) ()
      = Except.ok ((), JSVal.bool true) := h2
  exact ⟨h2', by simpa using (any_c4_amended twoP l123 (JSVal.num 2) true).2 h2'⟩

/-- C5 (counterexample): `first([0, 1])` returns `null`, not the element `0`
at index 0: the single-array dispatch returns `sequence[0] || null` and the
falsy first element falls through to `null`. -/
theorem first_c5_counterexample :
    first_call1 (jarr [JSVal.num 0, JSVal.num 1]) = some JSVal.null
    ∧ decide (JSVal.null = JSVal.num 0) = false := ⟨rfl, rfl⟩

/-- C5 (amended): `first(sequence)` returns the element at index 0 when that
element is truthy and `null` otherwise — so it returns `null` for an empty
sequence, for a `null` predicate argument, and also whenever the first
element is falsy (`0`, empty string, `false`, ...). -/
theorem first_c5_amended :
    (∀ (x : JSVal) (rest : List JSVal),
      first_call1 (jarr (x :: rest))
        = some (if truthy x then x else JSVal.null))
    ∧ first_call1 (jarr []) = some JSVal.null
    ∧ first_call1 JSVal.null = some JSVal.null :=
  ⟨fun _ _ => rfl, rfl, rfl⟩

/-- C7 (counterexample): neither `min` nor `all` is a key of the aggregated
default export; the AND-fold operation is exposed as `true_for_all` only. -/
theorem exports_c7_counterexample :
    (default_export_names.contains "min") = false
    ∧ (default_export_names.contains "all") = false := by
  exact ⟨by decide, by decide⟩

/-- C7 (amended): the aggregated name-to-operation mapping contains every
listed 2-arg operation except `min` and `all` — there is no `min` operation
at all, and the AND-fold is exposed directly under the name `true_for_all`
(there is no `all` for it to alias).  All of its operations except
`flatten` are also exported individually. -/
theorem exports_c7_amended :
    ((["each", "each_until", "each_in_reverse", "each_in_reverse_until",
        "filter", "map", "flat_map", "any", "none", "max"].all
        (fun n => default_export_names.contains n)) = true)
    ∧ (default_export_names.contains "true_for_all") = true
    ∧ (default_export_names.contains "min") = false
    ∧ (default_export_names.contains "all") = false
    ∧ (named_export_names.contains "true_for_all") = true
    ∧ (named_export_names.contains "min") = false
    ∧ (named_export_names.contains "all") = false
    ∧ (default_export_names.contains "flatten") = true
    ∧ (named_export_names.contains "flatten") = false := by decide

/-! Heap facts for `sort`. -/

theorem getD_append_left :
    ∀ (l l2 : List (List JSVal)) (i : Nat), i < l.length →
      (l ++ l2).getD i [] = l.getD i [] := by
  intro l
  induction l with
  | nil => intro l2 i h; simp at h
  | cons x xs ih =>
    intro l2 i h
    cases i with
    | zero => simp
    | succ j =>
      simp only [List.cons_append, List.getD_cons_succ]
      exact ih l2 j (by simpa using h)

theorem getD_append_self :
    ∀ (l : List (List JSVal)) (x : List JSVal),
      (l ++ [x]).getD l.length [] = x := by
  intro l x
  simp

/-- C8 (confirmed): `sort` never mutates its input and returns a fresh
array: at the heap level, the returned reference is a newly allocated cell
distinct from the input reference, every pre-existing cell (in particular
the input) is unchanged, and the fresh cell holds the stable sort of the
input's elements.  When the single argument is a sequence the default
natural-order comparer is used, so `sort([4,2,1,10,5]) = [1,2,4,5,10]`, and
`sort(null)` returns an empty sequence instead of raising an error. -/
theorem sort_c8 (comparer : JSVal → JSVal → Int) (st : Store) (ref : Nat)
    (h : ref < st.arrays.length) :
    (sort_heap comparer st ref).2 ≠ ref
    ∧ (∀ i, i < st.arrays.length →
        (sort_heap comparer st ref).1.arrays.getD i []
          = st.arrays.getD i [])
    ∧ (sort_heap comparer st ref).1.arrays.getD
        (sort_heap comparer st ref).2 []
        = stableSort comparer (st.arrays.getD ref [])
    ∧ sort_call1
        (jarr [JSVal.num 4, JSVal.num 2, JSVal.num 1, JSVal.num 10,
          JSVal.num 5])
        = .ok (jarr [JSVal.num 1, JSVal.num 2, JSVal.num 4, JSVal.num 5,
          JSVal.num 10])
    ∧ sort_call1 JSVal.null = .ok (jarr []) := by
  refine ⟨?_, ?_, ?_, rfl, rfl⟩
  · show st.arrays.length ≠ ref
    omega
  · intro i hi
    exact getD_append_left st.arrays _ i hi
  · show (st.arrays ++ [stableSort comparer (st.arrays.getD ref [])]).getD
        st.arrays.length [] = _
    exact getD_append_self _ _

/-- C8 (witness): on a one-cell heap holding `[3, 1]`, sorting reference 0
leaves cell 0 at `[3, 1]` and returns the fresh reference 1. -/
theorem sort_c8_witness :
    (sort_heap default_comparer store0 0).1.arrays.getD 0 []
      = [JSVal.num 3, JSVal.num 1]
    ∧ (sort_heap default_comparer store0 0).2 = 1 := by
  have h := (sort_c8 default_comparer store0 0 (by decide)).2.1 0 (by decide)
  exact ⟨by rw [h]; rfl, rfl⟩

/-! The `max` accumulator seed. -/

theorem max_foldl_neg (f : JSVal → Nat → List JSVal → JSVal)
    (S : List JSVal) :
    ∀ (L : List (Nat × JSVal)),
      (∀ q ∈ L, ∃ n : Int, f q.2 q.1 S = JSVal.num n ∧ n < 0) →
      L.foldl
        (fun (p : Unit × JSVal) (q : Nat × JSVal) =>
          (p.1, if jsGt (f q.2 q.1 S) p.2 then f q.2 q.1 S else p.2))
        ((), JSVal.num 0)
        = ((), JSVal.num 0) := by
  intro L
  induction L with
  | nil => intro _; rfl
  | cons q L ih =>
    intro h
    obtain ⟨n, hn, hneg⟩ := h q (by simp)
    have hgt : jsGt (JSVal.num n) (JSVal.num 0) = false := by
      simp only [jsGt]
      exact decide_eq_false (by omega)
    rw [List.foldl_cons]
    dsimp only
    rw [hn, hgt, if_neg (by simp)]
    exact ih (fun x hx => h x (by simp [hx]))

/-- C10 (confirmed): `max` seeds its fold with the number `0`, not with the
first element: on the empty sequence it returns `0`, and whenever every
resolved value is a strictly negative number the negative values all lose to
the `0` seed and the result is again `0` — never an error, never a negative
value. -/
theorem max_c10 (f : JSVal → Nat → List JSVal → JSVal) (S : List JSVal)
    (h : ∀ i, i < S.length →
      ∃ n : Int, f (S.getD i JSVal.undefined) i S = JSVal.num n ∧ n < 0) :
    max (statelessFn f) (jarr S) () = .ok ((), JSVal.num 0)
    ∧ max (statelessFn f) (jarr []) () = .ok ((), JSVal.num 0) := by
  refine ⟨?_, rfl⟩
  unfold max
  rw [reduce3_jarr_explicit _ _ _ _ (by decide) (by decide)]
  have hL : ∀ q ∈ List.enumFrom 0 S,
      ∃ n : Int, f q.2 q.1 S = JSVal.num n ∧ n < 0 := by
    intro q hq
    obtain ⟨h1, h2⟩ := enumFrom_zero_mem_spec S q hq
    have := h q.1 h1
    rwa [h2] at this
  exact congrArg Except.ok (max_foldl_neg f S (List.enumFrom 0 S) hL)

/-- C10 (witness): with the resolver `() => -1` on `[9, 3]`, `max` returns
`0`. -/
theorem max_c10_witness :
    max (statelessFn negOneR) (jarr [JSVal.num 9, JSVal.num 3]) ()
      = .ok ((), JSVal.num 0) :=
  (max_c10 negOneR [JSVal.num 9, JSVal.num 3]
    (fun _ _ => ⟨-1, rfl, by omega⟩)).1

/-! The `uniq` development: `filter` builds `keepIdx`, and the
first-occurrence filter is idempotent. -/

theorem jsFindIndex_jarr (pred : JSVal → Bool) (S : List JSVal) :
    jsFindIndex (jarr S) pred = findIndexAux pred S := by
  simp [jsFindIndex, jarr, JSArr.toList_ofList]

theorem filter_foldl (p : JSVal → Nat → Bool) :
    ∀ (rest : List JSVal) (i : Nat) (ys : List JSVal),
      (List.enumFrom i rest).foldl
        (fun (pr : Unit × JSVal) (q : Nat × JSVal) =>
          if truthy (JSVal.bool (p q.2 q.1)) then
            ((),
             match pr.2 with
             | JSVal.arr xs => jarr (xs.toList ++ [q.2])
             | other => other)
          else ((), pr.2))
        ((), jarr ys)
        = ((), jarr (ys ++ keepIdx p rest i)) := by
  intro rest
  induction rest with
  | nil => intro i ys; simp [keepIdx]
  | cons v vs ih =>
    intro i ys
    simp only [List.enumFrom, List.foldl_cons]
    by_cases hp : p v i
    · rw [if_pos (by simpa [truthy] using hp)]
      have hpush :
          (match (jarr ys : JSVal) with
           | JSVal.arr xs => jarr (xs.toList ++ [v])
           | other => other) = jarr (ys ++ [v]) := by
        simp [jarr, JSArr.toList_ofList]
      rw [hpush, ih (i + 1) (ys ++ [v])]
      simp [keepIdx, hp]
    · rw [if_neg (by simpa [truthy] using hp)]
      rw [ih (i + 1) ys]
      simp [keepIdx, hp]

theorem filter_jarr (p : JSVal → Nat → Bool) (S : List JSVal) :
    filter (fun (u : Unit) v i _a => (u, JSVal.bool (p v i))) (jarr S) ()
      = .ok ((), jarr (keepIdx p S 0)) := by
  unfold filter
  rw [reduce3_jarr_explicit _ _ _ _ (by decide) (by decide)]
  have h := filter_foldl p S 0 []
  simp only [List.nil_append] at h
  exact congrArg Except.ok h

theorem uniq_jarr (mapper : JSVal → JSVal) (S : List JSVal) :
    uniq_with_target_and_mapper mapper (jarr S)
      = .ok (jarr (uniqKeep mapper S)) := by
  show (filter
      (fun (u : Unit) v i _a =>
        (u, JSVal.bool (decide ((i : Int)
          = jsFindIndex (jarr S) (fun w => decide (mapper w = mapper v))))))
      (jarr S) ()).map (fun p => p.2)
    = .ok (jarr (uniqKeep mapper S))
  rw [filter_jarr
    (fun v i => decide ((i : Int)
      = jsFindIndex (jarr S) (fun w => decide (mapper w = mapper v)))) S]
  rfl

theorem keepIdx_sublist (p : JSVal → Nat → Bool) :
    ∀ (rest : List JSVal) (i : Nat), List.Sublist (keepIdx p rest i) rest := by
  intro rest
  induction rest with
  | nil => intro i; simp [keepIdx]
  | cons v vs ih =>
    intro i
    by_cases hp : p v i
    · simpa [keepIdx, hp] using (ih (i + 1)).cons₂ v
    · simpa [keepIdx, hp] using (ih (i + 1)).cons v

theorem keepIdx_mem_spec (p : JSVal → Nat → Bool) :
    ∀ (rest : List JSVal) (i : Nat) (y : JSVal), y ∈ keepIdx p rest i →
      ∃ k, k < rest.length ∧ rest.getD k JSVal.undefined = y
        ∧ p y (i + k) = true := by
  intro rest
  induction rest with
  | nil => intro i y hy; simp [keepIdx] at hy
  | cons v vs ih =>
    intro i y hy
    by_cases hp : p v i
    · rw [keepIdx, if_pos hp] at hy
      rcases List.mem_cons.mp hy with h | h
      · subst h
        exact ⟨0, by simp, by simp, by simpa using hp⟩
      · obtain ⟨k, hk, hget, hpk⟩ := ih (i + 1) y h
        refine ⟨k + 1, by simpa using Nat.succ_lt_succ hk, by simpa using hget, ?_⟩
        have : i + (k + 1) = i + 1 + k := by omega
        rw [this]
        exact hpk
    · rw [keepIdx, if_neg hp] at hy
      obtain ⟨k, hk, hget, hpk⟩ := ih (i + 1) y hy
      refine ⟨k + 1, by simpa using Nat.succ_lt_succ hk, by simpa using hget, ?_⟩
      have : i + (k + 1) = i + 1 + k := by omega
      rw [this]
      exact hpk

theorem keepIdx_pairwise (key : JSVal → JSVal) (p : JSVal → Nat → Bool)
    (hfix : ∀ (a b : JSVal) (i j : Nat),
      key a = key b → p a i = true → p b j = true → i = j) :
    ∀ (rest : List JSVal) (i : Nat),
      List.Pairwise (fun a b => key a ≠ key b) (keepIdx p rest i) := by
  intro rest
  induction rest with
  | nil => intro i; simp [keepIdx]
  | cons v vs ih =>
    intro i
    by_cases hp : p v i
    · rw [keepIdx, if_pos hp, List.pairwise_cons]
      refine ⟨?_, ih (i + 1)⟩
      intro b hb hkey
      obtain ⟨k, _, _, hpb⟩ := keepIdx_mem_spec p vs (i + 1) b hb
      have := hfix v b i (i + 1 + k) hkey hp hpb
      omega
    · rw [keepIdx, if_neg hp]
      exact ih (i + 1)

theorem keepIdx_all (p : JSVal → Nat → Bool) :
    ∀ (rest : List JSVal) (i : Nat),
      (∀ k, k < rest.length → p (rest.getD k JSVal.undefined) (i + k) = true) →
      keepIdx p rest i = rest := by
  intro rest
  induction rest with
  | nil => intro i _; rfl
  | cons v vs ih =>
    intro i h
    have h0 : p v i = true := by simpa using h 0 (by simp)
    rw [keepIdx, if_pos h0, ih (i + 1) ?hshift]
    case hshift =>
      intro k hk
      have := h (k + 1) (by simpa using Nat.succ_lt_succ hk)
      have harith : i + (k + 1) = i + 1 + k := by omega
      rw [harith] at this
      simpa using this

theorem findIndexAux_self (key : JSVal → JSVal) :
    ∀ (T : List JSVal),
      List.Pairwise (fun a b => key a ≠ key b) T →
      ∀ j, j < T.length →
        findIndexAux (fun w => decide (key w = key (T.getD j JSVal.undefined))) T
          = (j : Int) := by
  intro T
  induction T with
  | nil => intro _ j hj; simp at hj
  | cons v t ih =>
    intro hpw j hj
    obtain ⟨hhead, htail⟩ := List.pairwise_cons.mp hpw
    cases j with
    | zero =>
      simp only [List.getD_cons_zero, findIndexAux]
      rw [if_pos (by simp)]
      rfl
    | succ m =>
      have hm : m < t.length := by simpa using hj
      have hymem : t.getD m JSVal.undefined ∈ t := by
        rw [List.getD_eq_getElem t JSVal.undefined hm]
        exact List.getElem_mem hm
      have hne : key v ≠ key (t.getD m JSVal.undefined) := hhead _ hymem
      simp only [List.getD_cons_succ, findIndexAux]
      rw [if_neg (by simpa using hne)]
      have hrec := ih htail m hm
      rw [hrec]
      have : ((m : Int)) ≠ -1 := by omega
      rw [if_neg this]
      push_cast
      ring

theorem uniqKeep_pairwise (mapper : JSVal → JSVal) (S : List JSVal) :
    List.Pairwise (fun a b => mapper a ≠ mapper b) (uniqKeep mapper S) := by
  unfold uniqKeep
  apply keepIdx_pairwise
  intro a b i j hkey hpa hpb
  have ha := of_decide_eq_true hpa
  have hb := of_decide_eq_true hpb
  have hpred : (fun w => decide (mapper w = mapper a))
      = (fun w => decide (mapper w = mapper b)) := by
    funext w
    rw [hkey]
  rw [hpred] at ha
  omega

theorem uniqKeep_of_pairwise (mapper : JSVal → JSVal) (T : List JSVal)
    (hpw : List.Pairwise (fun a b => mapper a ≠ mapper b) T) :
    uniqKeep mapper T = T := by
  unfold uniqKeep
  apply keepIdx_all
  intro k hk
  apply decide_eq_true
  rw [jsFindIndex_jarr, findIndexAux_self mapper T hpw k hk]
  omega

theorem uniqKeep_idem (mapper : JSVal → JSVal) (S : List JSVal) :
    uniqKeep mapper (uniqKeep mapper S) = uniqKeep mapper S :=
  uniqKeep_of_pairwise mapper _ (uniqKeep_pairwise mapper S)

/-- C9 (confirmed): `uniq` is idempotent — running it a second time over its
own output returns that output unchanged — and its output `uniqKeep` is a
sublist of the input (original order preserved), has pairwise distinct keys
(one element per distinct key), and consists exactly of first occurrences:
every kept element sits in the input at the first index whose key matches
its own key. -/
theorem uniq_c9 (mapper : JSVal → JSVal) (S : List JSVal) :
    (uniq_with_target_and_mapper mapper (jarr S)).bind
        (fun t => uniq_with_target_and_mapper mapper t)
      = uniq_with_target_and_mapper mapper (jarr S)
    ∧ uniq_with_target_and_mapper mapper (jarr S)
        = .ok (jarr (uniqKeep mapper S))
    ∧ List.Sublist (uniqKeep mapper S) S
    ∧ List.Pairwise (fun a b => mapper a ≠ mapper b) (uniqKeep mapper S)
    ∧ (∀ y ∈ uniqKeep mapper S, ∃ k, k < S.length
        ∧ S.getD k JSVal.undefined = y
        ∧ findIndexAux (fun w => decide (mapper w = mapper y)) S
            = (k : Int)) := by
  have hbridge := uniq_jarr mapper S
  refine ⟨?_, hbridge, keepIdx_sublist _ S 0, uniqKeep_pairwise mapper S, ?_⟩
  · rw [hbridge]
    show uniq_with_target_and_mapper mapper (jarr (uniqKeep mapper S))
      = Except.ok (jarr (uniqKeep mapper S))
    rw [uniq_jarr mapper (uniqKeep mapper S), uniqKeep_idem mapper S]
  · intro y hy
    obtain ⟨k, hk, hget, hp⟩ := keepIdx_mem_spec _ S 0 y hy
    refine ⟨k, hk, hget, ?_⟩
    have h := of_decide_eq_true hp
    rw [jsFindIndex_jarr] at h
    push_cast at h
    omega

/-- C9 (witness): `uniq` with the identity key on `[1, 2, 2]` keeps
`[1, 2]`, and the kept element `2` is the first occurrence of its key at
index 1. -/
theorem uniq_c9_witness :
    uniq_with_target_and_mapper (fun v => v)
        (jarr [JSVal.num 1, JSVal.num 2, JSVal.num 2])
      = .ok (jarr [JSVal.num 1, JSVal.num 2])
    ∧ (∃ k, k < ([JSVal.num 1, JSVal.num 2, JSVal.num 2] : List JSVal).length
        ∧ ([JSVal.num 1, JSVal.num 2, JSVal.num 2] : List JSVal).getD k
            JSVal.undefined = JSVal.num 2
        ∧ findIndexAux (fun w => decide (w = JSVal.num 2))
            [JSVal.num 1, JSVal.num 2, JSVal.num 2] = (k : Int)) := by
  have h := uniq_c9 (fun v => v) [JSVal.num 1, JSVal.num 2, JSVal.num 2]
  constructor
  · rw [h.2.1]
    rfl
  · exact h.2.2.2.2 (JSVal.num 2) (by decide)

end ArraysJs
